import Mathlib

/-!
Verification of the liquidity-chart core of LNhelperBot
(src/liquiditychart/magma_liquidity_chart.py).

Embedding conventions:
* Python integers are modelled as `Nat` (all size/fee fields are
  non-negative by the data-model invariant).
* Python float arithmetic on currency values is modelled over `ℚ`;
  `int(...)` truncation toward zero is `ratTrunc`.
* The expression `int(min_size * total_ppm / 1_000_000)` and
  `max_size // min_size` are modelled as `Nat` floor division.
* A Python `ZeroDivisionError` (raised by `max_size // min_size` when
  `min_size == 0`) is modelled by `Except Unit`, `.error ()` standing for
  the raised exception.
* Python dicts (the per-seller allocation and the DP cells) are modelled
  as insertion-ordered association lists; the DP array is modelled as a
  function `Nat → Nat × Orders` updated pointwise.
-/

namespace LNhelper

/-- One `{condition, operator, value}` triple attached to an offer. -/
structure Cond where
  condition : String
  operator : String
  value : String
  deriving DecidableEq

/-- An offer record as consumed by `knapsack_liquidity`.  `allow_parallel`
is an `Option Bool` because the Python code reads it with
`offer.get('allow_parallel', False)`, so the field may be absent. -/
structure Offer where
  min_size : Nat
  max_size : Nat
  base_fee : Nat
  fee_rate : Nat
  amboss_fee_rate : Nat
  account : String
  allow_parallel : Option Bool
  conditions : List Cond
  deriving DecidableEq

/-- A purchase unit derived from an offer (one element of `chunks`). -/
structure Chunk where
  cost : Nat
  liquidity : Nat
  account : String
  deriving DecidableEq

/-- A per-seller allocation: the Python dict `{account: count}`,
as an insertion-ordered association list. -/
abbrev Orders := List (String × Nat)

/-- Python `int(q)`: truncation toward zero. -/
def ratTrunc (q : ℚ) : ℤ :=
  if 0 ≤ q then Int.floor q else -Int.floor (-q)

/-- `usd_to_sats(usd_amount, btc_usd_price)`: `int(usd / price * 100_000_000)`. -/
def usd_to_sats (usd_amount btc_usd_price : ℚ) : ℤ :=
  ratTrunc (usd_amount / btc_usd_price * 100000000)

/-- `sats_to_usd(sats, btc_usd_price)`. -/
def sats_to_usd (sats btc_usd_price : ℚ) : ℚ :=
  sats * btc_usd_price / 100000000

/-- `new_orders[acct] = new_orders.get(acct, 0) + 1` on an
insertion-ordered dict: update in place if present, append if absent. -/
def incrOrder : Orders → String → Orders
  | [], a => [(a, 1)]
  | (b, n) :: rest, a =>
    if b = a then (b, n + 1) :: rest else (b, n) :: incrOrder rest a

/-- The chunks generated from one offer (lines 109-123 of the source),
assuming `min_size ≠ 0` so that `max_size // min_size` is defined:
`cost = base_fee + int(min_size * total_ppm / 1_000_000)`,
`max_chunks = max_size // min_size` capped at 1 unless `allow_parallel`. -/
def chunkList (o : Offer) (include_amboss_fee : Bool) : List Chunk :=
  List.replicate
    (if o.allow_parallel.getD false then o.max_size / o.min_size
     else min (o.max_size / o.min_size) 1)
    ⟨o.base_fee +
       o.min_size * (o.fee_rate + (if include_amboss_fee then o.amboss_fee_rate else 0)) /
         1000000,
     o.min_size, o.account⟩

/-- Chunk generation for one offer; `min_size == 0` raises
`ZeroDivisionError` at `max_size // min_size`, modelled as `.error ()`. -/
def chunksOfOffer (o : Offer) (include_amboss_fee : Bool) : Except Unit (List Chunk) :=
  if o.min_size = 0 then .error () else .ok (chunkList o include_amboss_fee)

/-- Chunk generation over the whole offer list (the first loop of
`knapsack_liquidity`); the first raising offer aborts the solve. -/
def chunksOfOffers : List Offer → Bool → Except Unit (List Chunk)
  | [], _ => .ok []
  | o :: os, amb =>
    match chunksOfOffer o amb with
    | .error e => .error e
    | .ok cs =>
      match chunksOfOffers os amb with
      | .error e => .error e
      | .ok rest => .ok (cs ++ rest)

/-- One DP relaxation at budget `b` (lines 129-135): read
`dp[b - cost]`, and if it improves `dp[b]` strictly, write the improved
liquidity and the predecessor allocation credited with one more chunk. -/
def dpUpdate (c : Chunk) (dp : Nat → Nat × Orders) (b : Nat) : Nat → Nat × Orders :=
  if (dp (b - c.cost)).1 + c.liquidity > (dp b).1 then
    fun x =>
      if x = b then
        ((dp (b - c.cost)).1 + c.liquidity, incrOrder (dp (b - c.cost)).2 c.account)
      else dp x
  else dp

/-- `range(budget_sats, cost - 1, -1)`: the budgets scanned for one
chunk, from `budget` down to `cost` inclusive. -/
def descBudgets (budget cost : Nat) : List Nat :=
  (List.range' cost (budget + 1 - cost)).reverse

/-- Process one chunk: scan achievable budgets from high to low. -/
def dpChunk (budget : Nat) (dp : Nat → Nat × Orders) (c : Chunk) : Nat → Nat × Orders :=
  (descBudgets budget c.cost).foldl (dpUpdate c) dp

/-- `dp = [(0, {}) for _ in range(budget_sats + 1)]`. -/
def initTable : Nat → Nat × Orders := fun _ => (0, [])

/-- The fully relaxed DP table after all chunks. -/
def dpTable (budget : Nat) (chunks : List Chunk) : Nat → Nat × Orders :=
  chunks.foldl (dpChunk budget) initTable

/-- `max(dp, key=lambda x: x[0])`: the first entry (in index order
`0..budget`) attaining the maximum liquidity. -/
def selectBest (budget : Nat) (dp : Nat → Nat × Orders) : Nat × Orders :=
  (List.range (budget + 1)).foldl
    (fun best b => if (dp b).1 > best.1 then dp b else best) (dp 0)

/-- Lines 137-142: for each allocation entry, find the first chunk with
that account and add `cost * count`; accounts with no chunk add nothing. -/
def totalCostOf (chunks : List Chunk) (os : Orders) : Nat :=
  os.foldl
    (fun tc p =>
      match chunks.find? (fun c => c.account == p.1) with
      | some c => tc + c.cost * p.2
      | none => tc) 0

/-- The solver core of `knapsack_liquidity`, from a generated chunk set:
`(max_liq, total_cost, seller_orders)`. -/
def solveChunks (budget : Nat) (chunks : List Chunk) : Nat × Nat × Orders :=
  ((selectBest budget (dpTable budget chunks)).1,
   totalCostOf chunks (selectBest budget (dpTable budget chunks)).2,
   (selectBest budget (dpTable budget chunks)).2)

/-- `knapsack_liquidity(budget_sats, offers, include_amboss_fee)`. -/
def knapsack_liquidity (budget : Nat) (offers : List Offer) (include_amboss_fee : Bool) :
    Except Unit (Nat × Nat × Orders) :=
  match chunksOfOffers offers include_amboss_fee with
  | .error e => .error e
  | .ok chunks => .ok (solveChunks budget chunks)

/-- The restriction test for a single condition (lines 153-159). -/
def condMatches (c : Cond) : Bool :=
  c.condition == "NODE_SOCKETS" &&
    ((c.operator == "NOT_EQUAL_TO" && c.value.toUpper == "TOR") ||
     (c.operator == "CONTAINS" && c.value.toUpper == "CLEARNET"))

/-- `is_tor_restricted(offer)`. -/
def is_tor_restricted (o : Offer) : Bool :=
  o.conditions.any condMatches

/-- `offer_price_per_sat(offer)` (lines 171-180), over exact rationals. -/
def offer_price_per_sat (o : Offer) : ℚ :=
  ((o.base_fee + o.min_size * (o.fee_rate + o.amboss_fee_rate) / 1000000 : Nat) : ℚ) /
    (o.min_size : ℚ)

/-- `sorted(offers, key=offer_price_per_sat)`: a stable sort by price. -/
def sortByPrice (offers : List Offer) : List Offer :=
  offers.mergeSort (fun a b => decide (offer_price_per_sat a ≤ offer_price_per_sat b))

/-- The two per-budget solves of `generate_liquidity_chart`
(lines 213-216 and 224-228): the privacy-eligible variant over
`[o for o in offers if not is_tor_restricted(o)]` and the all-offers
variant, both sorted by price and solved with the secondary fee included. -/
def chartSolves (budget : Nat) (offers : List Offer) :
    Except Unit ((Nat × Nat × Orders) × (Nat × Nat × Orders)) :=
  match knapsack_liquidity budget
          (sortByPrice (offers.filter (fun o => !is_tor_restricted o))) true,
        knapsack_liquidity budget (sortByPrice offers) true with
  | .ok t, .ok c => .ok (t, c)
  | .error e, _ => .error e
  | _, .error e => .error e

/-- `np.arange(0, 505, 25)`: the coarse budget grid, in USD. -/
def budgets_usd_coarse : List ℚ :=
  [0, 25, 50, 75, 100, 125, 150, 175, 200, 225, 250,
   275, 300, 325, 350, 375, 400, 425, 450, 475, 500]

/-- `key_budgets = [10, 50, 100, 500]` (line 258). -/
def key_budgets : List ℚ := [10, 50, 100, 500]

/-- The annotation decision of lines 259-272 for one variant and one
checkpoint: find the checkpoint in the coarse grid (`np.where`, first
index); if present and the liquidity there is positive, emit
`100 * cost / liquidity`, else emit nothing. -/
def annotateAt (budgets ys costs : List ℚ) (key : ℚ) : Option ℚ :=
  (budgets.findIdx? (fun b => decide (b = key))).bind fun i =>
    if 0 < ys.getD i 0 then some (100 * costs.getD i 0 / ys.getD i 0) else none

/-- The fields requested by the offer-detail GraphQL query in
`get_offer_details` (lines 43-54); `allow_parallel` is not among them. -/
structure FetchedOffer where
  base_fee : Nat
  fee_rate : Nat
  amboss_fee_rate : Nat
  min_size : Nat
  max_size : Nat
  account : String
  id : String
  conditions : List Cond
  deriving DecidableEq

/-- A fetched offer as seen by `knapsack_liquidity`: every queried field
is carried over and `allow_parallel` is absent. -/
def FetchedOffer.toOffer (f : FetchedOffer) : Offer :=
  ⟨f.min_size, f.max_size, f.base_fee, f.fee_rate, f.amboss_fee_rate,
   f.account, none, f.conditions⟩

/-- A concrete offer with `min_size == 0` (all other fields benign). -/
def offerZeroMin : Offer := ⟨0, 10, 0, 0, 0, "a", none, []⟩

/-- The optimal 0/1-knapsack value over a chunk list: the maximum total
liquidity over choices of a prefix-decided subset of `l` with total cost
at most `b`.  This is the specification the DP table is checked against. -/
def bestVal : List Chunk → Nat → Nat
  | [], _ => 0
  | c :: cs, b =>
    if c.cost ≤ b then max (bestVal cs b) (bestVal cs (b - c.cost) + c.liquidity)
    else bestVal cs b

lemma bestVal_cons_of_le (c : Chunk) (cs : List Chunk) (b : Nat) (h : c.cost ≤ b) :
    bestVal (c :: cs) b = max (bestVal cs b) (bestVal cs (b - c.cost) + c.liquidity) := by
  simp [bestVal, h]

lemma bestVal_cons_of_gt (c : Chunk) (cs : List Chunk) (b : Nat) (h : ¬c.cost ≤ b) :
    bestVal (c :: cs) b = bestVal cs b := by
  simp [bestVal, h]

lemma bestVal_mono (l : List Chunk) :
    ∀ b1 b2 : Nat, b1 ≤ b2 → bestVal l b1 ≤ bestVal l b2 := by
  induction l with
  | nil => intro b1 b2 _; exact le_refl 0
  | cons c cs ih =>
    intro b1 b2 h
    by_cases h1 : c.cost ≤ b1
    · have h2 : c.cost ≤ b2 := le_trans h1 h
      rw [bestVal_cons_of_le c cs b1 h1, bestVal_cons_of_le c cs b2 h2]
      exact max_le_max (ih b1 b2 h)
        (Nat.add_le_add_right (ih _ _ (Nat.sub_le_sub_right h c.cost)) c.liquidity)
    · rw [bestVal_cons_of_gt c cs b1 h1]
      by_cases h2 : c.cost ≤ b2
      · rw [bestVal_cons_of_le c cs b2 h2]
        exact le_trans (ih b1 b2 h) (le_max_left _ _)
      · rw [bestVal_cons_of_gt c cs b2 h2]
        exact ih b1 b2 h

lemma bestVal_cons_le (c : Chunk) (cs : List Chunk) (b : Nat) :
    bestVal cs b ≤ bestVal (c :: cs) b := by
  by_cases h : c.cost ≤ b
  · rw [bestVal_cons_of_le c cs b h]
    exact le_max_left _ _
  · rw [bestVal_cons_of_gt c cs b h]

lemma bestVal_swap (x y : Chunk) (l : List Chunk) (b : Nat) :
    bestVal (x :: y :: l) b = bestVal (y :: x :: l) b := by
  have hsub : b - x.cost - y.cost = b - y.cost - x.cost := by omega
  by_cases hx : x.cost ≤ b <;> by_cases hy : y.cost ≤ b
  · by_cases hxy : y.cost ≤ b - x.cost
    · have hyx : x.cost ≤ b - y.cost := by omega
      rw [bestVal_cons_of_le x (y :: l) b hx, bestVal_cons_of_le y l b hy,
        bestVal_cons_of_le y l (b - x.cost) hxy,
        bestVal_cons_of_le y (x :: l) b hy, bestVal_cons_of_le x l b hx,
        bestVal_cons_of_le x l (b - y.cost) hyx, hsub]
      omega
    · have hyx : ¬x.cost ≤ b - y.cost := by omega
      rw [bestVal_cons_of_le x (y :: l) b hx, bestVal_cons_of_le y l b hy,
        bestVal_cons_of_gt y l (b - x.cost) hxy,
        bestVal_cons_of_le y (x :: l) b hy, bestVal_cons_of_le x l b hx,
        bestVal_cons_of_gt x l (b - y.cost) hyx]
      omega
  · have hy2 : ¬y.cost ≤ b - x.cost := by omega
    rw [bestVal_cons_of_le x (y :: l) b hx, bestVal_cons_of_gt y l b hy,
      bestVal_cons_of_gt y l (b - x.cost) hy2,
      bestVal_cons_of_gt y (x :: l) b hy, bestVal_cons_of_le x l b hx]
  · have hx2 : ¬x.cost ≤ b - y.cost := by omega
    rw [bestVal_cons_of_gt x (y :: l) b hx, bestVal_cons_of_le y l b hy,
      bestVal_cons_of_le y (x :: l) b hy, bestVal_cons_of_gt x l b hx,
      bestVal_cons_of_gt x l (b - y.cost) hx2]
  · rw [bestVal_cons_of_gt x (y :: l) b hx, bestVal_cons_of_gt y l b hy,
      bestVal_cons_of_gt y (x :: l) b hy, bestVal_cons_of_gt x l b hx]

lemma bestVal_perm {l1 l2 : List Chunk} (h : l1.Perm l2) :
    ∀ b, bestVal l1 b = bestVal l2 b := by
  induction h with
  | nil => intro b; rfl
  | cons x _ ih =>
    intro b
    simp only [bestVal]
    rw [ih b, ih (b - x.cost)]
  | swap x y l => intro b; exact bestVal_swap y x l b
  | trans _ _ ih1 ih2 => intro b; rw [ih1 b, ih2 b]

lemma bestVal_sublist {l1 l2 : List Chunk} (h : l1.Sublist l2) :
    ∀ b, bestVal l1 b ≤ bestVal l2 b := by
  induction h with
  | slnil => intro b; exact le_refl _
  | cons a _ ih => intro b; exact le_trans (ih b) (bestVal_cons_le a _ b)
  | @cons₂ s t a _ ih =>
    intro b
    by_cases hc : a.cost ≤ b
    · rw [bestVal_cons_of_le a s b hc, bestVal_cons_of_le a t b hc]
      exact max_le_max (ih b) (Nat.add_le_add_right (ih _) a.liquidity)
    · rw [bestVal_cons_of_gt a s b hc, bestVal_cons_of_gt a t b hc]
      exact ih b

lemma dpScan_spec (c : Chunk) (L : List Chunk) (budget : Nat) (dp : Nat → Nat × Orders)
    (hdp : ∀ b, b ≤ budget → (dp b).1 = bestVal L b) :
    ∀ k lo, c.cost ≤ lo → lo + k ≤ budget + 1 → ∀ b, b ≤ budget →
      (((List.range' lo k).foldr (fun x acc => dpUpdate c acc x) dp) b).1 =
        if lo ≤ b ∧ b < lo + k then bestVal (c :: L) b else bestVal L b := by
  intro k
  induction k with
  | zero =>
    intro lo _ _ b hb
    rw [if_neg (by omega)]
    simpa using hdp b hb
  | succ m ih =>
    intro lo hc hk b hb
    rw [List.range'_succ]
    simp only [List.foldr_cons]
    set T := (List.range' (lo + 1) m).foldr (fun x acc => dpUpdate c acc x) dp with hT
    have hTs : ∀ b, b ≤ budget →
        (T b).1 = if lo + 1 ≤ b ∧ b < lo + 1 + m then bestVal (c :: L) b else bestVal L b :=
      fun b hb => ih (lo + 1) (by omega) (by omega) b hb
    have hTlo : (T lo).1 = bestVal L lo := by
      rw [hTs lo (by omega), if_neg (by omega)]
    have hTread : (T (lo - c.cost)).1 = bestVal L (lo - c.cost) := by
      rw [hTs (lo - c.cost) (by omega), if_neg (by omega)]
    by_cases hbe : b = lo
    · subst hbe
      rw [if_pos (by omega), bestVal_cons_of_le c L b hc]
      by_cases hgt : (T (b - c.cost)).1 + c.liquidity > (T b).1
      · have happ : dpUpdate c T b b =
            ((T (b - c.cost)).1 + c.liquidity, incrOrder (T (b - c.cost)).2 c.account) := by
          simp only [dpUpdate, if_pos hgt]
          simp
        rw [happ]
        rw [hTread, hTlo] at hgt
        simp only [hTread]
        omega
      · have happ : dpUpdate c T b = T := by
          simp only [dpUpdate, if_neg hgt]
        rw [happ, hTlo]
        rw [hTread, hTlo] at hgt
        omega
    · have happ : dpUpdate c T lo b = T b := by
        simp only [dpUpdate]
        split
        · simp [hbe]
        · rfl
      rw [happ, hTs b hb]
      by_cases hin : lo + 1 ≤ b ∧ b < lo + 1 + m
      · rw [if_pos hin, if_pos (by omega)]
      · rw [if_neg hin, if_neg (by omega)]

lemma dpChunk_spec (budget : Nat) (c : Chunk) (L : List Chunk) (dp : Nat → Nat × Orders)
    (hdp : ∀ b, b ≤ budget → (dp b).1 = bestVal L b) :
    ∀ b, b ≤ budget → ((dpChunk budget dp c) b).1 = bestVal (c :: L) b := by
  intro b hb
  rw [dpChunk, descBudgets, List.foldl_reverse]
  by_cases hcb : c.cost ≤ budget + 1
  · rw [dpScan_spec c L budget dp hdp (budget + 1 - c.cost) c.cost (le_refl _) (by omega) b hb]
    by_cases hc : c.cost ≤ b
    · rw [if_pos (by omega)]
    · rw [if_neg (by omega), bestVal_cons_of_gt c L b hc]
  · have h0 : budget + 1 - c.cost = 0 := by omega
    rw [h0]
    simp only [List.range'_zero, List.foldr_nil]
    rw [hdp b hb]
    exact (bestVal_cons_of_gt c L b (by omega)).symm

lemma dpTable_fold_spec (budget : Nat) :
    ∀ (chunks : List Chunk) (dp : Nat → Nat × Orders) (L : List Chunk),
      (∀ b, b ≤ budget → (dp b).1 = bestVal L b) →
      ∀ b, b ≤ budget →
        ((chunks.foldl (dpChunk budget) dp) b).1 = bestVal (chunks.reverse ++ L) b := by
  intro chunks
  induction chunks with
  | nil => intro dp L hdp b hb; simpa using hdp b hb
  | cons c cs ih =>
    intro dp L hdp b hb
    simp only [List.foldl_cons]
    rw [ih (dpChunk budget dp c) (c :: L) (dpChunk_spec budget c L dp hdp) b hb]
    have hl : (c :: cs).reverse ++ L = cs.reverse ++ (c :: L) := by
      simp [List.reverse_cons, List.append_assoc]
    rw [hl]

lemma dpTable_spec (budget : Nat) (chunks : List Chunk) :
    ∀ b, b ≤ budget → ((dpTable budget chunks) b).1 = bestVal chunks.reverse b := by
  intro b hb
  have h := dpTable_fold_spec budget chunks initTable [] (fun _ _ => rfl) b hb
  simpa using h

lemma pickMax_fst (dp : Nat → Nat × Orders) :
    ∀ (l : List Nat) (init : Nat × Orders),
      (l.foldl (fun best b => if (dp b).1 > best.1 then dp b else best) init).1 =
        (l.map (fun b => (dp b).1)).foldl max init.1 := by
  intro l
  induction l with
  | nil => intro init; rfl
  | cons b bs ih =>
    intro init
    simp only [List.foldl_cons, List.map_cons]
    rw [ih]
    congr 1
    by_cases h : (dp b).1 > init.1
    · rw [if_pos h]; omega
    · rw [if_neg h]; omega

lemma foldl_max_le (m : Nat) :
    ∀ (l : List Nat) (a : Nat), a ≤ m → (∀ x ∈ l, x ≤ m) → l.foldl max a ≤ m := by
  intro l
  induction l with
  | nil => intro a ha _; simpa using ha
  | cons x xs ih =>
    intro a ha hl
    simp only [List.foldl_cons]
    refine ih (max a x) ?_ (fun y hy => hl y (List.mem_cons_of_mem x hy))
    have := hl x (List.mem_cons_self x xs)
    omega

lemma le_foldl_max_init : ∀ (l : List Nat) (a : Nat), a ≤ l.foldl max a := by
  intro l
  induction l with
  | nil => intro a; exact le_refl a
  | cons x xs ih =>
    intro a
    simp only [List.foldl_cons]
    exact le_trans (le_max_left a x) (ih (max a x))

lemma mem_le_foldl_max : ∀ (l : List Nat) (a x : Nat), x ∈ l → x ≤ l.foldl max a := by
  intro l
  induction l with
  | nil => intro a x hx; simp at hx
  | cons y ys ih =>
    intro a x hx
    simp only [List.foldl_cons]
    rcases List.mem_cons.mp hx with h | h
    · subst h
      exact le_trans (le_max_right a x) (le_foldl_max_init ys (max a x))
    · exact ih (max a y) x h

/-- The liquidity component of the solver equals the optimal knapsack
value at the full budget (the chunk list is reversed because the fold
invariant accumulates processed chunks in reverse). -/
lemma knap_value (budget : Nat) (chunks : List Chunk) :
    (solveChunks budget chunks).1 = bestVal chunks.reverse budget := by
  have hsel : (solveChunks budget chunks).1 =
      ((List.range (budget + 1)).map (fun b => ((dpTable budget chunks) b).1)).foldl max
        ((dpTable budget chunks) 0).1 := by
    simp only [solveChunks, selectBest]
    rw [pickMax_fst]
  rw [hsel]
  apply le_antisymm
  · apply foldl_max_le
    · rw [dpTable_spec budget chunks 0 (by omega)]
      exact bestVal_mono _ 0 budget (by omega)
    · intro x hx
      obtain ⟨b, hb, rfl⟩ := List.mem_map.mp hx
      have hble : b ≤ budget := by
        have := List.mem_range.mp hb
        omega
      rw [dpTable_spec budget chunks b hble]
      exact bestVal_mono _ b budget hble
  · have hmem : ((dpTable budget chunks) budget).1 ∈
        (List.range (budget + 1)).map (fun b => ((dpTable budget chunks) b).1) :=
      List.mem_map.mpr ⟨budget, List.mem_range.mpr (by omega), rfl⟩
    have h := mem_le_foldl_max _ ((dpTable budget chunks) 0).1 _ hmem
    rw [dpTable_spec budget chunks budget (le_refl _)] at h
    exact h

lemma chunksOfOffers_error (amb : Bool) :
    ∀ offers : List Offer, (∃ o ∈ offers, o.min_size = 0) →
      chunksOfOffers offers amb = .error () := by
  intro offers
  induction offers with
  | nil => intro h; simp at h
  | cons o os ih =>
    intro h
    by_cases h0 : o.min_size = 0
    · have he : chunksOfOffer o amb = .error () := by
        rw [chunksOfOffer, if_pos h0]
      simp only [chunksOfOffers, he]
    · have hos : ∃ x ∈ os, x.min_size = 0 := by
        obtain ⟨x, hx, hx0⟩ := h
        rcases List.mem_cons.mp hx with rfl | hmem
        · exact absurd hx0 h0
        · exact ⟨x, hmem, hx0⟩
      have hk : chunksOfOffer o amb = .ok (chunkList o amb) := by
        rw [chunksOfOffer, if_neg h0]
      simp only [chunksOfOffers, hk, ih hos]

lemma chunksOfOffers_ok (amb : Bool) :
    ∀ offers : List Offer, (∀ o ∈ offers, o.min_size ≠ 0) →
      chunksOfOffers offers amb = .ok (offers.flatMap (fun o => chunkList o amb)) := by
  intro offers
  induction offers with
  | nil => intro _; rfl
  | cons o os ih =>
    intro h
    have h0 : o.min_size ≠ 0 := h o (List.mem_cons_self o os)
    have hk : chunksOfOffer o amb = .ok (chunkList o amb) := by
      rw [chunksOfOffer, if_neg h0]
    simp only [chunksOfOffers, hk, ih (fun x hx => h x (List.mem_cons_of_mem o hx))]
    rw [List.flatMap_cons]

lemma flatMap_sublist {l1 l2 : List Offer} (h : l1.Sublist l2) (f : Offer → List Chunk) :
    (l1.flatMap f).Sublist (l2.flatMap f) := by
  induction h with
  | slnil => exact List.Sublist.refl _
  | cons a _ ih =>
    rw [List.flatMap_cons]
    exact ih.trans (List.sublist_append_right (f a) _)
  | cons₂ a _ ih =>
    rw [List.flatMap_cons, List.flatMap_cons]
    exact ih.append_left (f a)

lemma totalCostOf_eq (chunks : List Chunk) (f : String → Chunk) :
    ∀ (os : Orders) (acc : Nat),
      (∀ c1 ∈ chunks, ∀ c2 ∈ chunks, c1.account = c2.account → c1.cost = c2.cost) →
      (∀ p ∈ os, f p.1 ∈ chunks ∧ (f p.1).account = p.1) →
      os.foldl
        (fun tc p =>
          match chunks.find? (fun c => c.account == p.1) with
          | some c => tc + c.cost * p.2
          | none => tc) acc =
      os.foldl (fun s p => s + p.2 * (f p.1).cost) acc := by
  intro os
  induction os with
  | nil => intro acc _ _; rfl
  | cons p rest ih =>
    intro acc hunif hf
    simp only [List.foldl_cons]
    have hp := hf p (List.mem_cons_self p rest)
    have hsome : (chunks.find? (fun c => c.account == p.1)).isSome := by
      rw [List.find?_isSome]
      exact ⟨f p.1, hp.1, by simp [hp.2]⟩
    obtain ⟨c, hc⟩ := Option.isSome_iff_exists.mp hsome
    have hcmem : c ∈ chunks := List.mem_of_find?_eq_some hc
    have hcacc : c.account = p.1 := by
      have := List.find?_some hc
      simpa using this
    have hcost : c.cost = (f p.1).cost :=
      hunif c hcmem (f p.1) hp.1 (by rw [hcacc, hp.2])
    rw [hc]
    have hred : (match some c with
        | some c => acc + c.cost * p.2
        | none => acc) = acc + c.cost * p.2 := rfl
    rw [hred, hcost, Nat.mul_comm ((f p.1).cost) p.2]
    exact ih _ hunif (fun q hq => hf q (List.mem_cons_of_mem p hq))

/-- C1 counterexample: a chunk of cost 0 (a legal degenerate offer) is
selected even at budget 0, so the solve at budget 0 returns positive
liquidity and a non-empty allocation. -/
theorem zero_budget_zero_cost_counterexample :
    (solveChunks 0 [⟨0, 1, "a"⟩]).1 ≠ 0 ∧ (solveChunks 0 [⟨0, 1, "a"⟩]).2.2 ≠ [] := by
  decide

/-- C1 (amended): at budget 0 the solver returns `(0, 0, {})` provided
every chunk has positive cost; zero-cost chunks are instead selected. -/
theorem zero_budget_of_pos_costs (chunks : List Chunk)
    (h : ∀ c ∈ chunks, 0 < c.cost) : solveChunks 0 chunks = (0, 0, []) := by
  have htab : ∀ l : List Chunk, (∀ c ∈ l, 0 < c.cost) →
      l.foldl (dpChunk 0) initTable = initTable := by
    intro l
    induction l with
    | nil => intro _; rfl
    | cons c cs ih =>
      intro hl
      simp only [List.foldl_cons]
      have hc0 : dpChunk 0 initTable c = initTable := by
        rw [dpChunk, descBudgets]
        have h0 : 0 + 1 - c.cost = 0 := by
          have := hl c (List.mem_cons_self c cs)
          omega
        rw [h0]
        rfl
      rw [hc0]
      exact ih (fun x hx => hl x (List.mem_cons_of_mem c hx))
  have hsel : selectBest 0 initTable = (0, ([] : Orders)) := rfl
  simp only [solveChunks, dpTable, htab chunks h, hsel]
  rfl

/-- C1 witness for the amended statement. -/
theorem zero_budget_of_pos_costs_witness :
    (∀ c ∈ [(⟨2, 7, "x"⟩ : Chunk)], 0 < c.cost) ∧
      solveChunks 0 [(⟨2, 7, "x"⟩ : Chunk)] = (0, 0, []) :=
  ⟨by decide, zero_budget_of_pos_costs [⟨2, 7, "x"⟩] (by decide)⟩

/-- C2 counterexample: an offer with `min_size == 0` makes chunk
generation raise (ZeroDivisionError, modelled `.error ()`), aborting the
whole solve rather than contributing zero chunks. -/
theorem min_size_zero_fails_counterexample :
    chunksOfOffer offerZeroMin true = .error () ∧
      knapsack_liquidity 5 [offerZeroMin] true = .error () :=
  ⟨rfl, rfl⟩

/-- C2 (amended): any offer list containing an offer with
`min_size == 0` makes the whole solve fail with the division error;
`min_size > 0` is a caller precondition, not handled in the code. -/
theorem min_size_zero_errors (offers : List Offer) (amb : Bool) (budget : Nat)
    (h : ∃ o ∈ offers, o.min_size = 0) :
    knapsack_liquidity budget offers amb = .error () := by
  rw [knapsack_liquidity, chunksOfOffers_error amb offers h]

/-- C2 witness for the amended statement. -/
theorem min_size_zero_errors_witness :
    (∃ o ∈ [offerZeroMin], o.min_size = 0) ∧
      knapsack_liquidity 7 [offerZeroMin] true = .error () :=
  ⟨by decide, min_size_zero_errors [offerZeroMin] true 7 (by decide)⟩

/-- C3: when chunks sharing an account always share a cost, the total
cost reported by the solver is the sum over the returned allocation of
each account's chunk count times that account's per-chunk cost (`f`
names, for each allocated account, a chunk of that account). -/
theorem total_cost_eq_alloc_sum (budget : Nat) (chunks : List Chunk) (f : String → Chunk)
    (hunif : ∀ c1 ∈ chunks, ∀ c2 ∈ chunks, c1.account = c2.account → c1.cost = c2.cost)
    (hf : ∀ p ∈ (solveChunks budget chunks).2.2, f p.1 ∈ chunks ∧ (f p.1).account = p.1) :
    (solveChunks budget chunks).2.1 =
      ((solveChunks budget chunks).2.2).foldl (fun s p => s + p.2 * (f p.1).cost) 0 := by
  have h2 : (solveChunks budget chunks).2.1 =
      totalCostOf chunks (solveChunks budget chunks).2.2 := rfl
  rw [h2, totalCostOf]
  exact totalCostOf_eq chunks f (solveChunks budget chunks).2.2 0 hunif hf

/-- C3 witness. -/
theorem total_cost_eq_alloc_sum_witness :
    (∀ c1 ∈ [(⟨1, 5, "a"⟩ : Chunk)], ∀ c2 ∈ [(⟨1, 5, "a"⟩ : Chunk)],
        c1.account = c2.account → c1.cost = c2.cost) ∧
      (solveChunks 1 [(⟨1, 5, "a"⟩ : Chunk)]).2.1 =
        ((solveChunks 1 [(⟨1, 5, "a"⟩ : Chunk)]).2.2).foldl
          (fun s p => s + p.2 * ((fun _ => (⟨1, 5, "a"⟩ : Chunk)) p.1).cost) 0 :=
  ⟨by decide,
    total_cost_eq_alloc_sum 1 [⟨1, 5, "a"⟩] (fun _ => ⟨1, 5, "a"⟩) (by decide) (by decide)⟩

/-- C4: for a fixed chunk set the maximum liquidity is monotone in the
budget. -/
theorem knapsack_budget_monotone (chunks : List Chunk) (b1 b2 : Nat) (h : b1 ≤ b2) :
    (solveChunks b1 chunks).1 ≤ (solveChunks b2 chunks).1 := by
  rw [knap_value b1 chunks, knap_value b2 chunks]
  exact bestVal_mono chunks.reverse b1 b2 h

/-- C4 witness. -/
theorem knapsack_budget_monotone_witness :
    2 ≤ 3 ∧
      (solveChunks 2 [(⟨1, 3, "a"⟩ : Chunk), ⟨2, 4, "b"⟩]).1 ≤
        (solveChunks 3 [(⟨1, 3, "a"⟩ : Chunk), ⟨2, 4, "b"⟩]).1 :=
  ⟨by decide, knapsack_budget_monotone [⟨1, 3, "a"⟩, ⟨2, 4, "b"⟩] 2 3 (by decide)⟩

/-- C5: for an offer with positive `min_size`, chunk generation succeeds
and emits `floor(max_size / min_size)` chunks (capped at 1 unless
`allow_parallel`), each with liquidity `min_size` and cost
`base_fee + floor(min_size * totalPpm / 1_000_000)`. -/
theorem chunk_generation_spec (o : Offer) (amb : Bool) (h : 0 < o.min_size) :
    chunksOfOffer o amb = .ok (chunkList o amb) ∧
    (chunkList o amb).length =
      (if o.allow_parallel.getD false then o.max_size / o.min_size
       else min (o.max_size / o.min_size) 1) ∧
    ∀ c ∈ chunkList o amb,
      c.liquidity = o.min_size ∧
      c.cost = o.base_fee +
        o.min_size * (o.fee_rate + (if amb then o.amboss_fee_rate else 0)) / 1000000 := by
  refine ⟨?_, ?_, ?_⟩
  · rw [chunksOfOffer, if_neg (by omega)]
  · rw [chunkList, List.length_replicate]
  · intro c hc
    rw [chunkList] at hc
    have hce := List.eq_of_mem_replicate hc
    rw [hce]
    exact ⟨rfl, rfl⟩

/-- C5 witness: `min_size=100, max_size=250, allow_parallel=true`. -/
theorem chunk_generation_spec_witness :
    0 < (⟨100, 250, 7, 0, 0, "p", some true, []⟩ : Offer).min_size ∧
    (chunksOfOffer ⟨100, 250, 7, 0, 0, "p", some true, []⟩ true =
        .ok (chunkList ⟨100, 250, 7, 0, 0, "p", some true, []⟩ true) ∧
      (chunkList (⟨100, 250, 7, 0, 0, "p", some true, []⟩ : Offer) true).length =
        (if (⟨100, 250, 7, 0, 0, "p", some true, []⟩ : Offer).allow_parallel.getD false
         then (250 : Nat) / 100 else min ((250 : Nat) / 100) 1) ∧
      ∀ c ∈ chunkList (⟨100, 250, 7, 0, 0, "p", some true, []⟩ : Offer) true,
        c.liquidity = 100 ∧ c.cost = 7 + 100 * (0 + (if true then 0 else 0)) / 1000000) :=
  ⟨by decide, chunk_generation_spec ⟨100, 250, 7, 0, 0, "p", some true, []⟩ true (by decide)⟩

/-- C6: the classifier returns restricted exactly when some condition is
a `NODE_SOCKETS` condition whose operator/value pair is
`NOT_EQUAL_TO`/`TOR` or `CONTAINS`/`CLEARNET`, comparing the value
case-insensitively (via upper-casing); no matching condition — in
particular an empty list — means not restricted. -/
theorem classifier_iff (o : Offer) :
    is_tor_restricted o = true ↔
      ∃ c ∈ o.conditions, c.condition = "NODE_SOCKETS" ∧
        ((c.operator = "NOT_EQUAL_TO" ∧ c.value.toUpper = "TOR") ∨
         (c.operator = "CONTAINS" ∧ c.value.toUpper = "CLEARNET")) := by
  simp only [is_tor_restricted, List.any_eq_true, condMatches, Bool.and_eq_true,
    Bool.or_eq_true, beq_iff_eq]

/-- C7: at any budget, the all-offers variant of the chart solve yields
at least the liquidity of the privacy-restricted-excluded variant,
because the latter optimizes over a sub-multiset of chunks. -/
theorem curve_ordering (offers : List Offer) (budget : Nat)
    (h : ∀ o ∈ offers, o.min_size ≠ 0) :
    ∃ t c, chartSolves budget offers = .ok (t, c) ∧ t.1 ≤ c.1 := by
  have hfm : ∀ o ∈ offers.filter (fun o => !is_tor_restricted o), o.min_size ≠ 0 :=
    fun o ho => h o (List.mem_of_mem_filter ho)
  have hsf : ∀ o ∈ sortByPrice (offers.filter (fun o => !is_tor_restricted o)),
      o.min_size ≠ 0 :=
    fun o ho => hfm o ((List.mergeSort_perm _ _).subset ho)
  have hsa : ∀ o ∈ sortByPrice offers, o.min_size ≠ 0 :=
    fun o ho => h o ((List.mergeSort_perm _ _).subset ho)
  have e1 := chunksOfOffers_ok true _ hsf
  have e2 := chunksOfOffers_ok true _ hsa
  have k1 : knapsack_liquidity budget
      (sortByPrice (offers.filter (fun o => !is_tor_restricted o))) true =
      .ok (solveChunks budget
        ((sortByPrice (offers.filter (fun o => !is_tor_restricted o))).flatMap
          (fun o => chunkList o true))) := by
    rw [knapsack_liquidity, e1]
  have k2 : knapsack_liquidity budget (sortByPrice offers) true =
      .ok (solveChunks budget
        ((sortByPrice offers).flatMap (fun o => chunkList o true))) := by
    rw [knapsack_liquidity, e2]
  refine ⟨solveChunks budget
      ((sortByPrice (offers.filter (fun o => !is_tor_restricted o))).flatMap
        (fun o => chunkList o true)),
    solveChunks budget ((sortByPrice offers).flatMap (fun o => chunkList o true)),
    ?_, ?_⟩
  · simp only [chartSolves, k1, k2]
  · rw [knap_value, knap_value]
    have p1 : (((sortByPrice (offers.filter (fun o => !is_tor_restricted o))).flatMap
        (fun o => chunkList o true)).reverse).Perm
        ((offers.filter (fun o => !is_tor_restricted o)).flatMap (fun o => chunkList o true)) :=
      (List.reverse_perm _).trans ((List.mergeSort_perm _ _).flatMap_right _)
    have p2 : (offers.flatMap (fun o => chunkList o true)).Perm
        (((sortByPrice offers).flatMap (fun o => chunkList o true)).reverse) :=
      ((List.mergeSort_perm _ _).symm.flatMap_right _).trans (List.reverse_perm _).symm
    calc bestVal (((sortByPrice (offers.filter (fun o => !is_tor_restricted o))).flatMap
            (fun o => chunkList o true)).reverse) budget
        = bestVal ((offers.filter (fun o => !is_tor_restricted o)).flatMap
            (fun o => chunkList o true)) budget := bestVal_perm p1 budget
      _ ≤ bestVal (offers.flatMap (fun o => chunkList o true)) budget :=
          bestVal_sublist (flatMap_sublist (List.filter_sublist offers) _) budget
      _ = bestVal (((sortByPrice offers).flatMap (fun o => chunkList o true)).reverse)
            budget := bestVal_perm p2 budget

/-- C7 witness: one unrestricted and one Tor-restricted offer. -/
theorem curve_ordering_witness :
    (∀ o ∈ [(⟨10, 10, 1, 0, 0, "a", none, []⟩ : Offer),
        ⟨10, 10, 0, 0, 0, "b", none, [⟨"NODE_SOCKETS", "NOT_EQUAL_TO", "tor"⟩]⟩],
      o.min_size ≠ 0) ∧
    ∃ t c, chartSolves 5 [(⟨10, 10, 1, 0, 0, "a", none, []⟩ : Offer),
        ⟨10, 10, 0, 0, 0, "b", none, [⟨"NODE_SOCKETS", "NOT_EQUAL_TO", "tor"⟩]⟩] =
      .ok (t, c) ∧ t.1 ≤ c.1 :=
  ⟨by decide, curve_ordering _ 5 (by decide)⟩

/-- C8: for non-negative fiat and positive price the conversion equals
`floor(amount / price * 100_000_000)` and is non-negative (the Python
`int()` truncation coincides with floor on non-negative values). -/
theorem usd_to_sats_floor_nonneg (usd price : ℚ) (h1 : 0 ≤ usd) (h2 : 0 < price) :
    usd_to_sats usd price = Int.floor (usd / price * 100000000) ∧
      0 ≤ usd_to_sats usd price := by
  have hq : 0 ≤ usd / price * 100000000 := by positivity
  refine ⟨?_, ?_⟩
  · rw [usd_to_sats, ratTrunc, if_pos hq]
  · rw [usd_to_sats, ratTrunc, if_pos hq]
    exact Int.floor_nonneg.mpr hq

/-- C8 witness. -/
theorem usd_to_sats_floor_nonneg_witness :
    ((0 : ℚ) ≤ 3 ∧ (0 : ℚ) < 2) ∧
      (usd_to_sats 3 2 = Int.floor ((3 : ℚ) / 2 * 100000000) ∧ 0 ≤ usd_to_sats 3 2) :=
  ⟨⟨by norm_num, by norm_num⟩, usd_to_sats_floor_nonneg 3 2 (by norm_num) (by norm_num)⟩

/-- C9 counterexample: checkpoint budget 10 is absent from the coarse
grid (multiples of 25), so no annotation is ever emitted for it even
when every sampled liquidity is positive — refuting "emitted iff
maxLiquidity non-zero". -/
theorem checkpoint_ten_counterexample :
    annotateAt budgets_usd_coarse (List.replicate 21 1) (List.replicate 21 1) 10 = none ∧
      ∀ y ∈ List.replicate 21 (1 : ℚ), 0 < y := by
  refine ⟨by decide, by decide⟩

/-- C9 (amended): an annotation is emitted for a checkpoint iff the
checkpoint occurs in the coarse grid and the liquidity at its grid
position is positive; checkpoints 50, 100, 500 sit at grid indices
2, 4, 20, while checkpoint 10 is never annotated. -/
theorem checkpoint_emission_spec (ys costs : List ℚ) :
    annotateAt budgets_usd_coarse ys costs 10 = none ∧
    ((annotateAt budgets_usd_coarse ys costs 50).isSome ↔ 0 < ys.getD 2 0) ∧
    ((annotateAt budgets_usd_coarse ys costs 100).isSome ↔ 0 < ys.getD 4 0) ∧
    ((annotateAt budgets_usd_coarse ys costs 500).isSome ↔ 0 < ys.getD 20 0) := by
  have h10 : budgets_usd_coarse.findIdx? (fun b => decide (b = 10)) = none := by decide
  have h50 : budgets_usd_coarse.findIdx? (fun b => decide (b = 50)) = some 2 := by decide
  have h100 : budgets_usd_coarse.findIdx? (fun b => decide (b = 100)) = some 4 := by decide
  have h500 : budgets_usd_coarse.findIdx? (fun b => decide (b = 500)) = some 20 := by
    decide
  refine ⟨?_, ?_, ?_, ?_⟩
  · rw [annotateAt, h10]
    rfl
  · rw [annotateAt, h50]
    by_cases hy : 0 < ys.getD 2 0 <;> simp [hy]
  · rw [annotateAt, h100]
    by_cases hy : 0 < ys.getD 4 0 <;> simp [hy]
  · rw [annotateAt, h500]
    by_cases hy : 0 < ys.getD 20 0 <;> simp [hy]

/-- C10: an offer fetched by the detail query (which never requests
`allow_parallel`) is treated as non-parallel, so whenever chunk
generation succeeds it emits at most one chunk for that offer. -/
theorem fetched_offer_single_chunk (fo : FetchedOffer) (amb : Bool) (l : List Chunk)
    (h : chunksOfOffer fo.toOffer amb = .ok l) : l.length ≤ 1 := by
  rw [chunksOfOffer] at h
  by_cases h0 : fo.toOffer.min_size = 0
  · rw [if_pos h0] at h
    cases h
  · rw [if_neg h0] at h
    cases h
    simp only [chunkList, FetchedOffer.toOffer, List.length_replicate, Option.getD]
    exact Nat.min_le_right _ 1

/-- C10 witness. -/
theorem fetched_offer_single_chunk_witness :
    chunksOfOffer (FetchedOffer.toOffer ⟨1, 0, 0, 10, 100, "a", "id1", []⟩) true =
        .ok [(⟨1, 10, "a"⟩ : Chunk)] ∧
      ([(⟨1, 10, "a"⟩ : Chunk)]).length ≤ 1 :=
  ⟨rfl, fetched_offer_single_chunk ⟨1, 0, 0, 10, 100, "a", "id1", []⟩ true [⟨1, 10, "a"⟩] rfl⟩

end LNhelper
